import Mathlib

/-!
Verification of the Resilient Content Acquisition & Article Extraction Engine
(`src/web_scraper.py`, `src/agent.py`, `src/models.py`) against its
specification.

The Python code is shallowly embedded: pure helpers become Lean functions on
`String` / `List Char`; network- and parser-dependent steps (the HTTP fetch,
the curl subprocess, `feedparser.parse`, `BeautifulSoup.select`,
`dateutil.parser.parse`, `re.findall`, `json.loads`) are modelled as explicit
inputs to the embedded functions, since their outcome is data arriving from
the outside world.  Machine-level details that the claims do not touch
(asyncio scheduling, logging) are dropped.  Python strings are modelled as
`List Char` (ASCII-faithful: `str.lower` becomes `Char.toLower` per
character, `\s` becomes `Char.isWhitespace`).  `datetime` instants are
modelled as `ℕ` with `datetime.min = 0`.
-/

/-! ## Character-list utilities (Python string primitives) -/

/-- Python `sub in s` (substring containment). -/
def containsSub (s sub : String) : Bool := decide (sub.data <:+: s.data)

/-- Python `s.startswith(p)`. -/
def startsWithS (s p : String) : Bool := decide (p.data <+: s.data)

/-- Python `s.lower()` (ASCII model: per-character `Char.toLower`). -/
def lowerStr (s : String) : String := ⟨s.data.map Char.toLower⟩

/-- Python `a or b` on strings: the first operand if non-empty, else the second. -/
def pyOr (a b : String) : String := if a = "" then b else a

/-- Python `s.strip()` on a character list (whitespace from both ends). -/
def stripData (l : List Char) : List Char :=
  ((l.dropWhile Char.isWhitespace).reverse.dropWhile Char.isWhitespace).reverse

/-- Python `s.strip()`. -/
def stripWs (s : String) : String := ⟨stripData s.data⟩

/-- Collapse every maximal whitespace run to a single space
(the effect of `re.sub(r'\s+', ' ', text)`). -/
def collapseWs : List Char → List Char
  | [] => []
  | [c] => [if c.isWhitespace then ' ' else c]
  | c :: d :: rest =>
    if c.isWhitespace then
      if d.isWhitespace then collapseWs (d :: rest)
      else ' ' :: collapseWs (d :: rest)
    else c :: collapseWs (d :: rest)

/-- Number of whitespace-separated tokens still to come; the flag records
whether the previous character was a non-whitespace character. -/
def countTokensAux : Bool → List Char → ℕ
  | _, [] => 0
  | inWord, c :: rest =>
    if c.isWhitespace then countTokensAux false rest
    else (if inWord then 0 else 1) + countTokensAux true rest

/-- Python `len(s.split())`: the number of maximal non-whitespace runs. -/
def countTokens (s : String) : ℕ := countTokensAux false s.data

/-- Python `s.split(sep)` for a single-character separator
(`''.split(sep) == ['']`, n separators give n+1 parts). -/
def splitChar (sep : Char) : List Char → List (List Char)
  | [] => [[]]
  | c :: rest =>
    if c = sep then [] :: splitChar sep rest
    else
      match splitChar sep rest with
      | [] => [[c]]
      | h :: t => (c :: h) :: t

/-- Python `s.strip(ch)` for a single character. -/
def stripCharEnds (ch : Char) (l : List Char) : List Char :=
  ((l.dropWhile (· = ch)).reverse.dropWhile (· = ch)).reverse

/-- Python `s.rstrip(ch)` for a single character. -/
def rstripChar (ch : Char) (l : List Char) : List Char :=
  (l.reverse.dropWhile (· = ch)).reverse

/-- Python `s.replace(pat, '')` (delete every non-overlapping occurrence of
`pat`, scanning left to right); fuel-driven recursion, called with
`fuel = l.length`. -/
def removeAllAux (pat : List Char) : ℕ → List Char → List Char
  | 0, l => l
  | _ + 1, [] => []
  | n + 1, c :: rest =>
    if pat ≠ [] ∧ pat <+: (c :: rest) then
      removeAllAux pat n ((c :: rest).drop pat.length)
    else c :: removeAllAux pat n rest

/-- Python `s.replace(pat, '')`. -/
def removeAll (pat : String) (s : String) : String :=
  ⟨removeAllAux pat.data s.data.length s.data⟩

/-- Python `s.capitalize()`: first character uppercased, the rest lowercased. -/
def capitalizePy (s : String) : String :=
  match s.data with
  | [] => ""
  | c :: rest => ⟨c.toUpper :: rest.map Char.toLower⟩

/-! ## URL parsing (`urllib.parse.urlparse`, restricted to the absolute
http(s) URLs that `_normalize_url` guarantees) -/

/-- The characters after the `http://` / `https://` scheme prefix
(the input unchanged when neither prefix is present). -/
def afterScheme (l : List Char) : List Char :=
  if decide ("https://".data <+: l) then l.drop 8
  else if decide ("http://".data <+: l) then l.drop 7
  else l

/-- `urlparse(url).netloc` for absolute http(s) URLs. -/
def netlocOf (url : String) : String :=
  ⟨(afterScheme url.data).takeWhile (fun c => !(c == '/' || c == '?' || c == '#'))⟩

/-- `urlparse(url).path` for absolute http(s) URLs. -/
def pathOf (url : String) : String :=
  ⟨((afterScheme url.data).dropWhile (fun c => !(c == '/' || c == '?' || c == '#'))).takeWhile
      (fun c => !(c == '?' || c == '#'))⟩

/-- The scheme of an absolute URL (defaults to `http` like `urljoin` on a
scheme-less base). -/
def schemeOf (url : String) : String :=
  if startsWithS url "https://" then "https" else "http"

/-- The directory part of a path: everything up to and including the last
`/` (used by `urljoin` for relative references). -/
def dirOf (p : String) : String :=
  ⟨(p.data.reverse.dropWhile (· != '/')).reverse⟩

/-- `urllib.parse.urljoin(base, href)` restricted to the href shapes the
scraper meets: absolute http(s) URLs, protocol-relative (`//…`),
path-absolute (`/…`), and plain relative references (resolved against the
base path's directory; dot-segment normalization is not modelled, no claim
depends on it). -/
def urljoin (base href : String) : String :=
  if href = "" then base
  else if startsWithS href "http://" || startsWithS href "https://" then href
  else if startsWithS href "//" then schemeOf base ++ ":" ++ href
  else if startsWithS href "/" then schemeOf base ++ "://" ++ netlocOf base ++ href
  else schemeOf base ++ "://" ++ netlocOf base ++ dirOf (pathOf base) ++ href

/-! ## Data model (`models.py`)

`Article` in `models.py` is a pydantic model whose extraction-relevant fields
are embedded below (`summary`, `key_insights`, `language`, `tags`,
`analysis_data` are downstream-analysis fields never set by the scraper and
are omitted).  `word_count` is an ordinary field with default `0`; pydantic
does not derive it from `content`.  `publish_date` instants are `ℕ`. -/

structure Article where
  url : String
  title : String
  content : String
  companyName : String
  author : Option String := none
  publishDate : Option ℕ := none
  wordCount : ℕ := 0
deriving DecidableEq, Repr

/-- A pre-fetched article dict passed to `scrape_blog_articles`
(`article_data.get("title"/"url"/"published"/"summary"/"content", "")`). -/
structure PreArticle where
  url : String
  title : String
  published : String
  summary : String
  content : String
deriving DecidableEq, Repr

/-- A `feedparser` entry as read by `_scrape_rss`: `entry.link`,
`entry.title`, the `description`/`summary`/`content` fields consulted for
content, `entry.author` when present, and the normalized
`entry.published_parsed` timestamp when present. -/
structure FeedEntry where
  link : String
  title : String
  description : String
  summary : String
  contentField : String
  author : Option String
  publishedParsed : Option ℕ
deriving DecidableEq, Repr

/-! ## `web_scraper.py` -/

/-- `_normalize_url`: prepend `https://` when no scheme is present, then
strip trailing slashes. -/
def normalize_url (url : String) : String :=
  let u := if startsWithS url "http://" || startsWithS url "https://" then url
           else "https://" ++ url
  ⟨rstripChar '/' u.data⟩

/-- The feed indicators of `_is_rss_feed`. -/
def rssIndicators : List String := ["/feed", "/rss", ".xml", "/atom"]

/-- `_is_rss_feed`: the lowercased URL contains a feed indicator. -/
def is_rss_feed (url : String) : Bool :=
  rssIndicators.any (fun ind => containsSub (lowerStr url) ind)

/-- The specific-article path patterns of `_is_specific_article_url`. -/
def specificArticlePatterns : List String :=
  ["/blog/", "/articles/", "/news/", "/post/", "/story/"]

/-- The exclusion patterns of `_is_specific_article_url`.  Note that
`"/blog$"` and `"/blog/$"` are literal substring patterns in the source
(`pattern in path`), not regexes. -/
def specificExclusionPatterns : List String :=
  ["/blog$", "/blog/$", "/blog/page/", "/blog/category/", "/blog/tag/",
   "/blog/author/", "/blog/archive/", "/tag/", "/category/", "/page/",
   "/archive/", "/feed", "/rss"]

/-- `_is_specific_article_url`: the lowercased path matches an article
pattern, matches no exclusion pattern, and has at least two segments after
stripping outer slashes. -/
def is_specific_article_url (url : String) : Bool :=
  let path := lowerStr (pathOf url)
  let isSpecific := specificArticlePatterns.any (fun p => containsSub path p)
  let isExcluded := specificExclusionPatterns.any (fun p => containsSub path p)
  let segs := splitChar '/' (stripCharEnds '/' path.data)
  isSpecific && !isExcluded && decide (2 ≤ segs.length)

/-- The handling path `_scrape_single_blog` routes a URL to. -/
inductive Route where
  | specificArticle
  | feed
  | aqua
  | medium
  | wordpress
  | generic
deriving DecidableEq, Repr

/-- The routing decision of `_scrape_single_blog` (applied after
`_normalize_url`): the specific-article check runs first, then the feed
check, then the site-specific branches, else the generic blog-index path. -/
def scrape_single_blog_route (url : String) : Route :=
  if is_specific_article_url url then .specificArticle
  else if is_rss_feed url then .feed
  else if containsSub (lowerStr url) "aquasec.com" then .aqua
  else if containsSub (lowerStr url) "medium.com" then .medium
  else if containsSub url "wordpress.com" || containsSub (lowerStr url) "/wp-content/" then .wordpress
  else .generic

/-- `_extract_company_name`: domain without `www.`, second-to-last dot
component capitalized. -/
def extract_company_name (url : String) : String :=
  let domain := removeAll "www." (netlocOf url)
  let parts := (splitChar '.' domain.data).map (fun l => (⟨l⟩ : String))
  if 2 ≤ parts.length then capitalizePy (parts.getD (parts.length - 2) "")
  else domain

/-- `_scrape_rss`, given the parsed feed entries (`feedparser.parse` is
I/O): an empty feed yields `[]`; otherwise the first `max_articles * 2`
entries are converted, content taken as `description or summary or content`
and `word_count = len(content.split())`. -/
def scrape_rss (entries : List FeedEntry) (maxArticles : ℕ) (url : String) : List Article :=
  if entries.isEmpty then []
  else
    (entries.take (maxArticles * 2)).map (fun e =>
      let content := pyOr (pyOr e.description e.summary) e.contentField
      { url := e.link
        title := e.title
        content := content
        companyName := extract_company_name url
        author := e.author
        publishDate := e.publishedParsed
        wordCount := countTokens content })

/-- The valid-article path patterns of `_is_valid_article_url`. -/
def validArticlePatterns : List String :=
  ["/blog/", "/articles/", "/news/", "/post/", "/story/"]

/-- The invalid path patterns of `_is_valid_article_url`. -/
def invalidArticlePatterns : List String :=
  ["/blog/tag/", "/blog/category/", "/blog/author/", "/blog/page/",
   "/blog/archive/", "/tag/", "/category/", "/author/", "/page/",
   "/archive/", "/search", "/feed", "/rss"]

/-- `_is_valid_article_url`: same netloc as the base URL, lowercased path
matches a valid pattern and no invalid pattern, and the path is strictly
longer than `/blog/`. -/
def is_valid_article_url (fullUrl baseUrl : String) : Bool :=
  netlocOf fullUrl == netlocOf baseUrl
  && validArticlePatterns.any (fun p => containsSub (lowerStr (pathOf fullUrl)) p)
  && !(invalidArticlePatterns.any (fun p => containsSub (lowerStr (pathOf fullUrl)) p))
  && decide (("/blog/" : String).length < (pathOf fullUrl).length)

/-- The ordered CSS-selector list of `_find_article_links`. -/
def articleLinkSelectors : List String :=
  ["a[href^=\"/blog/\"]",
   "article a[href^=\"/blog/\"]",
   "section a[href^=\"/blog/\"]",
   "h2 a[href^=\"/blog/\"]",
   "h3 a[href^=\"/blog/\"]",
   ".post-title a[href^=\"/blog/\"]",
   ".entry-title a[href^=\"/blog/\"]",
   "a[href*=\"/blog/\"]",
   ".blog-post a[href*=\"/blog/\"]",
   "h2 a",
   "h3 a",
   ".post-title a",
   ".entry-title a",
   "article a",
   ".blog-title a"]

/-- The inner link loop of `_find_article_links` for one selector's found
anchors (`link.get('href')` is `Option String`): anchors without an href
are skipped; each href is resolved with `urljoin` and kept when
`_is_valid_article_url` accepts it and it is not already collected; the
loop breaks once 50 links are collected. -/
def collectLinks (baseUrl : String) (acc : List String) : List (Option String) → List String
  | [] => acc
  | none :: rest => collectLinks baseUrl acc rest
  | some href :: rest =>
    let fullUrl := urljoin baseUrl href
    if is_valid_article_url fullUrl baseUrl then
      let acc' := if acc.contains fullUrl then acc else acc ++ [fullUrl]
      if 50 ≤ acc'.length then acc' else collectLinks baseUrl acc' rest
    else collectLinks baseUrl acc rest

/-- The selector loop of `_find_article_links` over the given selector
list: the first selector whose collected links are non-empty wins. -/
def findLinksLoop (select : String → List (Option String)) (baseUrl : String) :
    List String → List String
  | [] => []
  | sel :: rest =>
    let links := collectLinks baseUrl [] (select sel)
    if links.isEmpty then findLinksLoop select baseUrl rest else links

/-- `_find_article_links`, with `soup.select` modelled as the input
function `select` from a selector string to the hrefs of the matched
anchors. -/
def find_article_links (select : String → List (Option String)) (baseUrl : String) :
    List String :=
  findLinksLoop select baseUrl articleLinkSelectors

/-! ### `_fetch_page_content` -/

/-- The outcome of the primary `session.get` attempt: an exception, or a
response with an HTTP status and a body. -/
inductive PrimaryFetch where
  | exn
  | resp (status : ℕ) (body : String)
deriving DecidableEq, Repr

/-- The content gate of `_fetch_page_content`:
`html_content and len(html_content) >= min_content_length`. -/
def contentOk (body : String) (minLen : ℕ) : Bool :=
  (body != "") && decide (minLen ≤ body.length)

/-- Whether the primary attempt short-circuits `_fetch_page_content`:
status 200 and a sufficiently long body. -/
def primaryOk : PrimaryFetch → ℕ → Bool
  | .exn, _ => false
  | .resp status body, minLen => status == 200 && contentOk body minLen

/-- The body of the primary response (empty for the exception case). -/
def primaryBody : PrimaryFetch → String
  | .exn => ""
  | .resp _ body => body

/-- `_fetch_page_content`, with the primary response and the curl
fallback's result (`_fetch_with_curl` returns `None` on failure) as inputs.
The second component counts how many times the curl fallback runs. -/
def fetch_page_content (primary : PrimaryFetch) (curl : Option String) (minLen : ℕ) :
    Option String × ℕ :=
  if primaryOk primary minLen then (some (primaryBody primary), 0)
  else
    match curl with
    | some c => if contentOk c minLen then (some c, 1) else (none, 1)
    | none => (none, 1)

/-! ### `_clean_text` -/

/-- Index of the leftmost occurrence of `pat` in `l` (`pat <+: l.drop i`). -/
def firstOccur (pat : List Char) : List Char → Option ℕ
  | [] => if pat.isEmpty then some 0 else none
  | c :: rest =>
    if decide (pat <+: c :: rest) then some 0
    else (firstOccur pat rest).map (· + 1)

/-- One `re.sub(phrase + '.*', '', text, flags=IGNORECASE)` step after
whitespace collapsing (no newlines remain, so `.*` runs to the end of the
string): truncate at the leftmost case-insensitive occurrence of `phrase`. -/
def cutFrom (phrase : String) (s : List Char) : List Char :=
  match firstOccur (phrase.data.map Char.toLower) (s.map Char.toLower) with
  | some i => s.take i
  | none => s

/-- Python `\w` (ASCII model). -/
def isWordChar (c : Char) : Bool := c.isAlphanum || c == '_'

/-- `re.sub(r'Share this:\w+', '', text, flags=IGNORECASE)`: delete every
occurrence of `Share this:` followed by a maximal non-empty word-character
run; fuel-driven recursion, called with `fuel = l.length`. -/
def removeShareThisAux : ℕ → List Char → List Char
  | 0, l => l
  | _ + 1, [] => []
  | n + 1, c :: rest =>
    if decide ("share this:".data <+: (c :: rest).map Char.toLower) then
      match (c :: rest).drop 11 with
      | [] => c :: removeShareThisAux n rest
      | d :: after =>
        if isWordChar d then removeShareThisAux n ((d :: after).dropWhile isWordChar)
        else c :: removeShareThisAux n rest
    else c :: removeShareThisAux n rest

/-- The `Share this:` pattern step of `_clean_text`. -/
def removeShareThis (l : List Char) : List Char := removeShareThisAux l.length l

/-- The four run-to-end boilerplate phrases of `_clean_text`, in the order
the source applies them. -/
def boilerplatePhrases : List String :=
  ["Original story from", "Read more", "Continue reading", "View comments"]

/-- The whitespace-collapsed, stripped form of the input that `_clean_text`
starts from. -/
def collapsedOf (s : String) : List Char := stripData (collapseWs s.data)

/-- Apply the run-to-end phrase removals in order. -/
def applyCuts (phrases : List String) (s : List Char) : List Char :=
  phrases.foldl (fun acc p => cutFrom p acc) s

/-- `_clean_text`: empty input stays empty; otherwise whitespace runs are
collapsed to single spaces and stripped, the four run-to-end phrase
patterns are removed in order, then the `Share this:\w+` pattern. -/
def clean_text (s : String) : String :=
  if s = "" then ""
  else ⟨removeShareThis (applyCuts boilerplatePhrases (collapsedOf s))⟩

/-! ### Scira response parsing and HTML article extraction -/

/-- `_parse_scira_fallback`, given the `Title:` / `URL:` line captures that
`re.findall` produced from the response text: each title yields an article
with the positionally matching URL (the base URL when exhausted), a fixed
placeholder content, and `word_count = 0`. -/
def parse_scira_fallback (titles : List String) (urls : List String) (baseUrl : String) :
    List Article :=
  (List.range titles.length).map (fun i =>
    { url := urls.getD i baseUrl
      title := stripWs (titles.getD i "")
      content := "Content not available in fallback parsing"
      companyName := extract_company_name baseUrl
      author := none
      publishDate := none
      wordCount := 0 })

/-- One decoded element of the JSON array in a Scira response
(`article_data.get(...)` fields). -/
structure SciraItem where
  url : String
  title : String
  content : String
  author : Option String
  publishDate : Option ℕ
deriving DecidableEq, Repr

/-- The article-construction loop of `_parse_scira_response` over the
decoded JSON items: every article's `word_count` is
`len(article_data.get('content', '').split())`. -/
def parse_scira_response (items : List SciraItem) (baseUrl : String) : List Article :=
  items.map (fun it =>
    { url := it.url
      title := it.title
      content := it.content
      companyName := extract_company_name baseUrl
      author := it.author
      publishDate := it.publishDate
      wordCount := countTokens it.content })

/-- The per-article data `_scrape_single_article` returns. -/
structure ArticleData where
  url : String
  title : String
  content : String
  author : Option String
  publishDate : Option ℕ
deriving DecidableEq, Repr

/-- `_extract_articles_from_html` with `scrape_full_content=True`, given
the discovered links and the per-link result of `_scrape_single_article`
(an I/O step): failed links are skipped, successful ones yield an article
with `word_count = len(content.split())`. -/
def extract_articles_full (links : List String) (fetchArticle : String → Option ArticleData)
    (maxArticles : ℕ) (companyName : String) : List Article :=
  (links.take maxArticles).filterMap (fun link =>
    match fetchArticle link with
    | some d => some
        { url := d.url
          title := d.title
          content := d.content
          companyName := companyName
          author := d.author
          publishDate := d.publishDate
          wordCount := countTokens d.content }
    | none => none)

/-- `_extract_articles_from_html` with `scrape_full_content=False`: each
link yields a stub article with placeholder content and `word_count = 0`
(`title` is the link text when found). -/
def extract_articles_basic (links : List String) (titleOf : String → Option String)
    (maxArticles : ℕ) (companyName : String) : List Article :=
  (links.take maxArticles).map (fun link =>
    { url := link
      title := (titleOf link).getD "Untitled Article"
      content := "Content not available - use curl to fetch individual articles"
      companyName := companyName
      author := none
      publishDate := none
      wordCount := 0 })

/-! ### `scrape_blog_articles` -/

/-- The per-source dedup loop of `scrape_blog_articles` (lines 97–103):
walk the source's articles, keep those whose URL is unseen, and break once
`max_articles` unique ones are kept; returns the kept articles and the
grown seen set.  `cnt` is `len(unique_articles)` so far. -/
def takeUnique (maxArticles : ℕ) (seen : List String) (cnt : ℕ) :
    List Article → List Article × List String
  | [] => ([], seen)
  | a :: rest =>
    if seen.contains a.url then takeUnique maxArticles seen cnt rest
    else if maxArticles ≤ cnt + 1 then ([a], a.url :: seen)
    else
      let (u, seen') := takeUnique maxArticles (a.url :: seen) (cnt + 1) rest
      (a :: u, seen')

/-- The per-URL loop of `scrape_blog_articles`: a failing source
(`_scrape_single_blog` raised) contributes one error string
`"Error scraping {url}: {e}"`; a succeeding one contributes its deduplicated
articles.  `scrape` models the awaited `_scrape_single_blog` outcome. -/
def processUrls (scrape : String → Except String (List Article)) (maxArticles : ℕ) :
    List String → List String → List Article × List String
  | [], _ => ([], [])
  | u :: rest, seen =>
    match scrape u with
    | .error e =>
      let (arts, errs) := processUrls scrape maxArticles rest seen
      (arts, ("Error scraping " ++ u ++ ": " ++ e) :: errs)
    | .ok sourceArts =>
      let (uniq, seen') := takeUnique maxArticles seen 0 sourceArts
      let (arts, errs) := processUrls scrape maxArticles rest seen'
      (uniq ++ arts, errs)

/-- The final cross-URL dedup pass of `scrape_blog_articles`
(lines 114–120): keep the first article for each URL not already in `seen`. -/
def dedupKeepFirst : List Article → List String → List Article
  | [], _ => []
  | a :: rest, seen =>
    if seen.contains a.url then dedupKeepFirst rest seen
    else a :: dedupKeepFirst rest (a.url :: seen)

/-- `scrape_blog_articles`.  A non-empty pre-fetched article with a
non-empty URL makes the code construct
`Article(title=…, url=…, published=…, summary=…, content=…)` without the
required `company_name` field, which pydantic rejects: that pre-fetched
path raises a `ValidationError` out of the function, modelled as `.error`.
Pre-fetched articles with empty URLs are skipped.  Sources are only
processed when fewer than `max_articles * len(urls)` articles are already
present; the result is the cross-URL-deduplicated article list and the
per-source error strings. -/
def scrape_blog_articles (scrape : String → Except String (List Article))
    (urls : List String) (maxArticles : ℕ) (preFetched : List PreArticle) :
    Except String (List Article × List String) :=
  if preFetched.any (fun p => p.url != "") then
    .error "ValidationError: company_name field required"
  else
    let pr :=
      if decide (0 < maxArticles * urls.length) then
        processUrls scrape maxArticles urls []
      else ([], [])
    .ok (dedupKeepFirst pr.1 [], pr.2)

/-! ## `agent.py`: RSS fetching and date sorting -/

/-- A `feedparser` entry as read by `_fetch_rss_articles`: the
`title`/`link`/`published`/`pubDate`/`summary`/`description` fields, plus
the extracted content value (the source tries `entry.content`,
`entry.content_encoded` and namespaced fields in order; that duck-typed
chain produces one string, which ordering never inspects, so it is carried
as a field). -/
structure RssEntry where
  title : String
  link : String
  published : String
  pubDate : String
  summary : String
  description : String
  content : String
deriving DecidableEq, Repr

/-- The article dict built by `_fetch_rss_articles` for each entry. -/
structure RssArticle where
  title : String
  url : String
  published : String
  summary : String
  content : String
deriving DecidableEq, Repr

/-- The dict-construction step of `_fetch_rss_articles` for one entry. -/
def entryToRssArticle (e : RssEntry) : RssArticle :=
  { title := if e.title = "" then e.title else stripWs e.title
    url := e.link
    published := pyOr e.published e.pubDate
    summary :=
      let s := pyOr e.summary e.description
      if s = "" then s else stripWs s
    content := if e.content = "" then e.content else stripWs e.content }

/-- The fixed strptime format list of `_sort_articles_by_date`. -/
def rssDateFormats : List String :=
  ["%a, %d %b %Y %H:%M:%S %Z",
   "%a, %d %b %Y %H:%M:%S %z",
   "%a, %d %b %Y %H:%M:%S GMT",
   "%Y-%m-%d %H:%M:%S",
   "%Y-%m-%dT%H:%M:%S%z",
   "%Y-%m-%dT%H:%M:%SZ"]

/-- `get_sort_key` inside `_sort_articles_by_date`, with
`dateutil.parser.parse` and `datetime.strptime` modelled as the input
parser functions (`none` = the parse failed): empty dates map to the
sentinel `datetime.min` (here `0`); otherwise `dateutil` is tried, then the
fixed formats in order, and if everything fails the sentinel is returned.
The Lean function is total: no input makes it raise. -/
def get_sort_key (dparse : String → Option ℕ) (stp : String → String → Option ℕ)
    (published : String) : ℕ :=
  if published = "" then 0
  else
    match dparse published with
    | some d => d
    | none =>
      match rssDateFormats.findSome? (fun fmt => stp fmt published) with
      | some d => d
      | none => 0

/-- Python's `sorted(articles, key=get_sort_key, reverse=True)`: a stable
descending sort by key, modelled by insertion sort (any stable sorting
algorithm computes the same list). -/
def sort_articles_by_date (dparse : String → Option ℕ) (stp : String → String → Option ℕ)
    (articles : List RssArticle) : List RssArticle :=
  List.insertionSort
    (fun a b => get_sort_key dparse stp b.published ≤ get_sort_key dparse stp a.published)
    articles

/-- `_fetch_rss_articles`, given the parsed feed entries: build the article
dicts, sort newest-first, and keep the first `max_articles` (an empty feed
makes the source raise and return `[]`, which coincides with the formula). -/
def fetch_rss_articles (dparse : String → Option ℕ) (stp : String → String → Option ℕ)
    (entries : List RssEntry) (maxArticles : ℕ) : List RssArticle :=
  (sort_articles_by_date dparse stp (entries.map entryToRssArticle)).take maxArticles

/-! ## Claim-level notions and concrete fixtures -/

/-- The seen-URL set after a dedup pass over `l` starting from `seen`
(mirrors the growth of `seen_urls` in `scrape_blog_articles`). -/
def seenAfter : List Article → List String → List String
  | [], seen => seen
  | a :: rest, seen =>
    if seen.contains a.url then seenAfter rest seen
    else seenAfter rest (a.url :: seen)

/-- The articles a source contributes: its scraped list on success,
nothing on failure. -/
def okArticles (scrape : String → Except String (List Article)) (u : String) : List Article :=
  match scrape u with
  | .ok l => l
  | .error _ => []

/-- The claim's encounter order over a batch: sources in caller-supplied
order, articles within a source in extraction order. -/
def encounterStream (scrape : String → Except String (List Article)) (urls : List String) :
    List Article :=
  (urls.map (okArticles scrape)).foldr (· ++ ·) []

/-- A case-insensitive occurrence of `phrase` at position `i` of `l`. -/
def occursCI (phrase : String) (l : List Char) (i : ℕ) : Prop :=
  phrase.data.map Char.toLower <+: (l.map Char.toLower).drop i

instance (phrase : String) (l : List Char) (i : ℕ) : Decidable (occursCI phrase l i) := by
  unfold occursCI
  infer_instance

/-- No occurrence of `q` can start strictly inside an occurrence of `p`:
at every interior offset, `q` neither extends a tail of `p` nor sits
entirely inside it. -/
def noInner (q p : List Char) : Prop :=
  ∀ d, d < p.length → 0 < d → ¬(q <+: p.drop d) ∧ ¬(p.drop d <+: q)

instance (q p : List Char) : Decidable (noInner q p) := by
  unfold noInner
  infer_instance

/-- Fixture: a minimal feed entry used in concrete evaluations. -/
def mkEntry (link : String) : FeedEntry :=
  { link := link, title := "t", description := "d", summary := "",
    contentField := "", author := none, publishedParsed := none }

/-- Fixture article for the C1 witness. -/
def wArtC1 : Article :=
  { url := "https://w.example/blog/p", title := "T", content := "c", companyName := "W" }

/-- Fixture scraper for the C1 witness. -/
def wScrapeC1 : String → Except String (List Article) :=
  fun u => if u = "https://w.example/blog" then .ok [wArtC1] else .ok []

/-- Fixture: first source's first article (C1 counterexample). -/
def cxArtA : Article :=
  { url := "https://co.example/blog/a", title := "A", content := "", companyName := "Co" }

/-- Fixture: first source's copy of the duplicated URL (C1 counterexample). -/
def cxArtCX : Article :=
  { url := "https://co.example/blog/c", title := "X", content := "", companyName := "Co" }

/-- Fixture: second source's copy of the duplicated URL (C1 counterexample). -/
def cxArtCY : Article :=
  { url := "https://co.example/blog/c", title := "Y", content := "", companyName := "Co" }

/-- Fixture scraper for the C1 counterexample: the first source returns two
articles (legitimate, e.g. an RSS source returning up to `2×max` entries),
the second returns another copy of the second URL. -/
def cxScrapeC1 : String → Except String (List Article) :=
  fun u =>
    if u = "https://s1.example" then .ok [cxArtA, cxArtCX]
    else if u = "https://s2.example" then .ok [cxArtCY]
    else .ok []

/-- Fixture page for C8: the only anchor with a `/blog/`-prefixed href
points at a tag page, and a heading anchor points at `/articles/foo`
(consistent with CSS semantics: the tag anchor sits outside any
article/section/heading, the `/articles/foo` anchor inside an `h2`). -/
def cxSelectC8 : String → List (Option String) :=
  fun s =>
    if s = "a[href^=\"/blog/\"]" || s = "a[href*=\"/blog/\"]" then [some "/blog/tag/x"]
    else if s = "h2 a" then [some "/articles/foo"]
    else []

/-- Fixture feed entry for the C9 witness. -/
def wEntryC9 : FeedEntry :=
  { link := "https://x.example/a", title := "t", description := "hello world",
    summary := "", contentField := "", author := none, publishedParsed := none }

/-- The article `scrape_rss` builds from `wEntryC9`. -/
def wArtC9 : Article :=
  { url := "https://x.example/a", title := "t", content := "hello world",
    companyName := "X", author := none, publishDate := none, wordCount := 2 }

/-! ## Generic list lemmas -/

theorem subOfPre {α : Type} {a b : List α} (h : a <+: b) : a <:+: b := h.isInfix

theorem subOfSuf {α : Type} {a b : List α} (h : a <:+ b) : a <:+: b := h.isInfix

theorem subTrans {α : Type} {a b c : List α} (h₁ : a <:+: b) (h₂ : b <:+: c) : a <:+: c :=
  h₁.trans h₂

theorem subMap {α β : Type} (f : α → β) {a b : List α} (h : a <:+: b) :
    a.map f <:+: b.map f := h.map f

theorem preTotal {α : Type} : ∀ {c a b : List α}, a <+: c → b <+: c → a <+: b ∨ b <+: a := by
  intro c
  induction c with
  | nil =>
    intro a b ha hb
    have ha' : a = [] := List.prefix_nil.mp ha
    exact Or.inl (ha' ▸ List.nil_prefix)
  | cons x xs ih =>
    intro a b ha hb
    match a, b with
    | [], _ => exact Or.inl (List.nil_prefix)
    | _, [] => exact Or.inr (List.nil_prefix)
    | y :: a', z :: b' =>
      obtain ⟨t₁, ht₁⟩ := ha
      obtain ⟨t₂, ht₂⟩ := hb
      have hy : y = x := by
        have := congrArg (fun l => l.head?) ht₁
        simpa using this
      have hz : z = x := by
        have := congrArg (fun l => l.head?) ht₂
        simpa using this
      have ha' : a' <+: xs := ⟨t₁, by simpa using congrArg List.tail ht₁⟩
      have hb' : b' <+: xs := ⟨t₂, by simpa using congrArg List.tail ht₂⟩
      rcases ih ha' hb' with h | h
      · obtain ⟨t, rfl⟩ := h
        exact Or.inl (by rw [hy, hz]; exact ⟨t, rfl⟩)
      · obtain ⟨t, rfl⟩ := h
        exact Or.inr (by rw [hy, hz]; exact ⟨t, rfl⟩)

theorem preDrop {α : Type} (n : ℕ) : ∀ {a b : List α}, a <+: b → a.drop n <+: b.drop n := by
  induction n with
  | zero => intro a b h; simpa using h
  | succ n ih =>
    intro a b h
    match a with
    | [] => simp
    | x :: a' =>
      obtain ⟨t, ht⟩ := h
      match b, ht with
      | _, rfl =>
        simpa using ih ⟨t, rfl⟩

theorem preTakeOfLe {α : Type} {a l : List α} {n : ℕ} (h : a <+: l) (hn : a.length ≤ n) :
    a <+: l.take n := by
  obtain ⟨t, rfl⟩ := h
  refine ⟨t.take (n - a.length), ?_⟩
  rw [List.take_append_eq_append_take, List.take_of_length_le hn]

/-! ## C6: fetch fallback ordering -/

/-- C6: for every primary-fetch outcome, curl outcome and minimum length,
`_fetch_page_content` invokes the curl fallback exactly once precisely when
the primary attempt fails, returns non-200, or under-returns; it returns
`None` only after having invoked the fallback; and a good primary response
is returned directly with the fallback never invoked. -/
theorem fetch_page_content_fallback_once (p : PrimaryFetch) (c : Option String) (m : ℕ) :
    ((fetch_page_content p c m).2 = 1 ↔ primaryOk p m = false)
    ∧ (primaryOk p m = true → fetch_page_content p c m = (some (primaryBody p), 0))
    ∧ ((fetch_page_content p c m).1 = none → (fetch_page_content p c m).2 = 1) := by
  rcases c with _ | s
  · by_cases h : primaryOk p m <;> simp [fetch_page_content, h]
  · by_cases h : primaryOk p m <;> by_cases h2 : contentOk s m <;>
      simp [fetch_page_content, h, h2]

/-- C6 witness: a 200 response with a sufficiently long body is returned
with zero fallback invocations, and a 500 response forces exactly one. -/
theorem fetch_page_content_fallback_once_w :
    fetch_page_content (.resp 200 "0123456789") none 10 = (some "0123456789", 0)
    ∧ (fetch_page_content (.resp 500 "0123456789") none 10).2 = 1 :=
  ⟨(fetch_page_content_fallback_once (.resp 200 "0123456789") none 10).2.1 (by decide),
   (fetch_page_content_fallback_once (.resp 500 "0123456789") none 10).1.mpr (by decide)⟩

/-! ## C7: date-normalization sentinel -/

/-- C7: the sort-key function of `_sort_articles_by_date` always returns a
value (it is a total function); it returns the minimum sentinel
(`datetime.min`, modelled as `0`) on the empty string, and whenever the
flexible parser and every fixed-format parser reject the input. -/
theorem get_sort_key_sentinel (dparse : String → Option ℕ)
    (stp : String → String → Option ℕ) (s : String) :
    get_sort_key dparse stp "" = 0
    ∧ (dparse s = none → (∀ fmt ∈ rssDateFormats, stp fmt s = none) →
        get_sort_key dparse stp s = 0) := by
  constructor
  · simp [get_sort_key]
  · intro h1 h2
    unfold get_sort_key
    by_cases hs : s = ""
    · simp [hs]
    · simp [hs, h1, List.findSome?_eq_none_iff.mpr h2]

/-- C7 witness: with parsers that accept nothing, `"not-a-date"` and `""`
both map to the sentinel. -/
theorem get_sort_key_sentinel_w :
    get_sort_key (fun _ => none) (fun _ _ => none) "not-a-date" = 0
    ∧ get_sort_key (fun _ => none) (fun _ _ => none) "" = 0 :=
  ⟨(get_sort_key_sentinel (fun _ => none) (fun _ _ => none) "not-a-date").2 rfl
      (fun _ _ => rfl),
   (get_sort_key_sentinel (fun _ => none) (fun _ _ => none) "not-a-date").1⟩

/-! ## C4: feed extractor cap -/

/-- C4 (amended): `_scrape_rss` returns at most `2 × max_articles` articles
— it deliberately over-collects (`entries[:max_articles * 2]`) so that the
caller's dedup still has enough material; the cap to `max_articles` is
enforced by `scrape_blog_articles`, not here. -/
theorem scrape_rss_cap (entries : List FeedEntry) (maxArticles : ℕ) (url : String) :
    (scrape_rss entries maxArticles url).length ≤ 2 * maxArticles := by
  unfold scrape_rss
  by_cases h : entries.isEmpty <;> simp [h, List.length_take]
  omega

/-- C4 counterexample: a three-entry feed with `max_articles = 1` yields
two articles, refuting "at most `max` articles". -/
theorem scrape_rss_cap_cx :
    (scrape_rss [mkEntry "https://b.example/1", mkEntry "https://b.example/2",
        mkEntry "https://b.example/3"] 1 "https://b.example/feed").length = 2
    ∧ ¬((scrape_rss [mkEntry "https://b.example/1", mkEntry "https://b.example/2",
        mkEntry "https://b.example/3"] 1 "https://b.example/feed").length ≤ 1) := by
  constructor
  · rfl
  · decide

/-! ## C3: source classification -/

theorem pathData_sub (url : String) : (pathOf url).data <:+: url.data := by
  have h1 : (pathOf url).data <+:
      ((afterScheme url.data).dropWhile (fun c => !(c == '/' || c == '?' || c == '#'))) :=
    List.takeWhile_prefix _
  have h2 : ((afterScheme url.data).dropWhile (fun c => !(c == '/' || c == '?' || c == '#')))
      <:+ afterScheme url.data := List.dropWhile_suffix _
  have h3 : afterScheme url.data <:+ url.data := by
    unfold afterScheme
    split
    · exact List.drop_suffix 8 url.data
    · split
      · exact List.drop_suffix 7 url.data
      · exact List.suffix_refl url.data
  exact subTrans (subOfPre h1) (subTrans (subOfSuf h2) (subOfSuf h3))

theorem lower_contains_of_path (url p : String)
    (h : containsSub (lowerStr (pathOf url)) p = true) :
    containsSub (lowerStr url) p = true := by
  unfold containsSub at h ⊢
  rw [decide_eq_true_iff] at h ⊢
  have hm : (pathOf url).data.map Char.toLower <:+: url.data.map Char.toLower :=
    subMap Char.toLower (pathData_sub url)
  exact subTrans h hm

/-- C3 (amended): in `_scrape_single_blog` the specific-article check runs
*before* the feed check, so precedence is the reverse of the claim; but
every URL whose path contains `/feed` or `/rss` (case-insensitively) still
routes to feed handling, because those substrings are on the
specific-article exclusion list.  (URLs whose only feed indicator is
`.xml` or `/atom` and whose path matches an article pattern classify as
specific articles — see the counterexample.) -/
theorem route_feed_of_path_feed_or_rss (url : String)
    (h : containsSub (lowerStr (pathOf url)) "/feed" = true
       ∨ containsSub (lowerStr (pathOf url)) "/rss" = true) :
    scrape_single_blog_route url = Route.feed := by
  have hexc : specificExclusionPatterns.any
      (fun p => containsSub (lowerStr (pathOf url)) p) = true := by
    rcases h with h | h
    · exact List.any_eq_true.mpr ⟨"/feed", by decide, h⟩
    · exact List.any_eq_true.mpr ⟨"/rss", by decide, h⟩
  have hspec : is_specific_article_url url = false := by
    unfold is_specific_article_url
    simp only [hexc]
    simp
  have hrss : is_rss_feed url = true := by
    unfold is_rss_feed
    rcases h with h | h
    · exact List.any_eq_true.mpr ⟨"/feed", by decide, lower_contains_of_path url "/feed" h⟩
    · exact List.any_eq_true.mpr ⟨"/rss", by decide, lower_contains_of_path url "/rss" h⟩
  unfold scrape_single_blog_route
  simp [hspec, hrss]

/-- C3 counterexample: `https://example.com/blog/data.xml` has a feed
indicator (`.xml`) in its path — `_is_rss_feed` is true — yet the source
classifies it as a specific article, not as a feed: the specific-article
check takes precedence. -/
theorem route_feed_cx :
    containsSub (lowerStr (pathOf "https://example.com/blog/data.xml")) ".xml" = true
    ∧ is_rss_feed "https://example.com/blog/data.xml" = true
    ∧ scrape_single_blog_route "https://example.com/blog/data.xml"
        = Route.specificArticle := by
  decide

/-- C3 witness: `https://example.com/feed` routes to feed handling. -/
theorem route_feed_of_path_feed_or_rss_w :
    scrape_single_blog_route "https://example.com/feed" = Route.feed :=
  route_feed_of_path_feed_or_rss "https://example.com/feed" (Or.inl (by decide))

/-! ## C1/C2: deduplication, aggregation and error recording -/

theorem dedupKeepFirst_not_seen :
    ∀ (l : List Article) (seen : List String) (a : Article),
      a ∈ dedupKeepFirst l seen → seen.contains a.url = false := by
  intro l
  induction l with
  | nil => intro seen a ha; simp [dedupKeepFirst] at ha
  | cons x rest ih =>
    intro seen a ha
    unfold dedupKeepFirst at ha
    by_cases hx : seen.contains x.url
    · rw [if_pos hx] at ha
      exact ih seen a ha
    · rw [if_neg hx] at ha
      rcases List.mem_cons.mp ha with rfl | ha'
      · exact Bool.not_eq_true _ ▸ (Bool.eq_false_iff.mpr hx)
      · have h := ih (x.url :: seen) a ha'
        simp only [List.contains_cons, Bool.or_eq_false_iff] at h
        exact h.2

theorem dedupKeepFirst_nodup :
    ∀ (l : List Article) (seen : List String),
      ((dedupKeepFirst l seen).map (fun a => a.url)).Nodup := by
  intro l
  induction l with
  | nil => intro seen; simp [dedupKeepFirst]
  | cons x rest ih =>
    intro seen
    unfold dedupKeepFirst
    by_cases hx : seen.contains x.url
    · rw [if_pos hx]; exact ih seen
    · rw [if_neg hx]
      simp only [List.map_cons, List.nodup_cons]
      refine ⟨?_, ih (x.url :: seen)⟩
      intro hmem
      rcases List.mem_map.mp hmem with ⟨a, ha, hurl⟩
      have h := dedupKeepFirst_not_seen rest (x.url :: seen) a ha
      simp only [List.contains_cons, Bool.or_eq_false_iff] at h
      have : (a.url == x.url) = false := h.1
      rw [hurl] at this
      simp at this

theorem dedupKeepFirst_first :
    ∀ (l : List Article) (seen : List String) (a : Article),
      a ∈ dedupKeepFirst l seen → l.find? (fun x => x.url == a.url) = some a := by
  intro l
  induction l with
  | nil => intro seen a ha; simp [dedupKeepFirst] at ha
  | cons x rest ih =>
    intro seen a ha
    unfold dedupKeepFirst at ha
    by_cases hx : seen.contains x.url
    · rw [if_pos hx] at ha
      have hne : (x.url == a.url) = false := by
        have h := dedupKeepFirst_not_seen rest seen a ha
        by_contra hc
        rw [Bool.not_eq_false, beq_iff_eq] at hc
        rw [← hc] at h
        rw [hx] at h
        exact Bool.true_eq_false.mp h
      rw [List.find?_cons_of_neg _ (by simp [hne])]
      exact ih seen a ha
    · rw [if_neg hx] at ha
      rcases List.mem_cons.mp ha with rfl | ha'
      · exact List.find?_cons_of_pos _ (by simp)
      · have h := dedupKeepFirst_not_seen rest (x.url :: seen) a ha'
        simp only [List.contains_cons, Bool.or_eq_false_iff] at h
        have hne : (x.url == a.url) = false := by
          have := h.1
          rw [beq_eq_false_iff_ne] at this ⊢
          exact fun hc => this hc.symm
        rw [List.find?_cons_of_neg _ (by simp [hne])]
        exact ih (x.url :: seen) a ha'

theorem takeUnique_no_trunc :
    ∀ (arts : List Article) (maxA : ℕ) (seen : List String) (cnt : ℕ),
      cnt + arts.length ≤ maxA →
      takeUnique maxA seen cnt arts = (dedupKeepFirst arts seen, seenAfter arts seen) := by
  intro arts
  induction arts with
  | nil => intro maxA seen cnt _; simp [takeUnique, dedupKeepFirst, seenAfter]
  | cons a rest ih =>
    intro maxA seen cnt hle
    unfold takeUnique dedupKeepFirst seenAfter
    by_cases hx : seen.contains a.url
    · rw [if_pos hx, if_pos hx, if_pos hx]
      exact ih maxA seen cnt (by simp at hle; omega)
    · rw [if_neg hx, if_neg hx, if_neg hx]
      simp only [List.length_cons] at hle
      by_cases hbr : maxA ≤ cnt + 1
      · have hrest : rest = [] := by
          have : rest.length = 0 := by omega
          exact List.length_eq_zero.mp this
        subst hrest
        rw [if_pos hbr]
        simp [dedupKeepFirst, seenAfter]
      · rw [if_neg hbr]
        rw [ih maxA (a.url :: seen) (cnt + 1) (by omega)]

theorem dedupKeepFirst_cons (a : Article) (rest : List Article) (seen : List String) :
    dedupKeepFirst (a :: rest) seen
      = if seen.contains a.url then dedupKeepFirst rest seen
        else a :: dedupKeepFirst rest (a.url :: seen) := rfl

theorem seenAfter_cons (a : Article) (rest : List Article) (seen : List String) :
    seenAfter (a :: rest) seen
      = if seen.contains a.url then seenAfter rest seen
        else seenAfter rest (a.url :: seen) := rfl

theorem dedupKeepFirst_append :
    ∀ (l₁ l₂ : List Article) (seen : List String),
      dedupKeepFirst (l₁ ++ l₂) seen
        = dedupKeepFirst l₁ seen ++ dedupKeepFirst l₂ (seenAfter l₁ seen) := by
  intro l₁
  induction l₁ with
  | nil => intro l₂ seen; simp [dedupKeepFirst, seenAfter]
  | cons x rest ih =>
    intro l₂ seen
    simp only [List.cons_append]
    rw [dedupKeepFirst_cons, dedupKeepFirst_cons, seenAfter_cons]
    by_cases hx : seen.contains x.url
    · rw [if_pos hx, if_pos hx, if_pos hx]
      exact ih l₂ seen
    · rw [if_neg hx, if_neg hx, if_neg hx]
      simp only [List.cons_append]
      rw [ih l₂ (x.url :: seen)]

theorem processUrls_stream (scrape : String → Except String (List Article)) (maxA : ℕ) :
    ∀ (urls : List String) (seen : List String),
      (∀ u ∈ urls, (okArticles scrape u).length ≤ maxA) →
      (processUrls scrape maxA urls seen).1
        = dedupKeepFirst (encounterStream scrape urls) seen := by
  intro urls
  induction urls with
  | nil => intro seen _; simp [processUrls, encounterStream, dedupKeepFirst]
  | cons u rest ih =>
    intro seen hb
    have hstream : encounterStream scrape (u :: rest)
        = okArticles scrape u ++ encounterStream scrape rest := by
      simp [encounterStream]
    unfold processUrls
    cases hsc : scrape u with
    | error e =>
      have hok : okArticles scrape u = [] := by simp [okArticles, hsc]
      simp only []
      rw [hstream, hok, List.nil_append]
      exact ih seen (fun v hv => hb v (List.mem_cons_of_mem u hv))
    | ok arts =>
      have hok : okArticles scrape u = arts := by simp [okArticles, hsc]
      have hlen : (0 : ℕ) + arts.length ≤ maxA := by
        have := hb u (List.mem_cons_self u rest)
        rw [hok] at this
        omega
      simp only []
      rw [takeUnique_no_trunc arts maxA seen 0 hlen]
      simp only []
      rw [hstream, hok, dedupKeepFirst_append,
        ih (seenAfter arts seen) (fun v hv => hb v (List.mem_cons_of_mem u hv))]

theorem dedupKeepFirst_of_nodup :
    ∀ (l : List Article) (seen : List String),
      (∀ a ∈ l, seen.contains a.url = false) →
      ((l.map (fun a => a.url)).Nodup) →
      dedupKeepFirst l seen = l := by
  intro l
  induction l with
  | nil => intro seen _ _; simp [dedupKeepFirst]
  | cons x rest ih =>
    intro seen h1 h2
    unfold dedupKeepFirst
    rw [if_neg (by rw [h1 x (List.mem_cons_self x rest)]; simp)]
    simp only [List.map_cons, List.nodup_cons] at h2
    congr 1
    refine ih (x.url :: seen) ?_ h2.2
    intro a ha
    simp only [List.contains_cons, Bool.or_eq_false_iff]
    refine ⟨?_, h1 a (List.mem_cons_of_mem x ha)⟩
    rw [beq_eq_false_iff_ne]
    intro hc
    exact h2.1 (List.mem_map.mpr ⟨a, ha, hc⟩)

theorem processUrls_errors (scrape : String → Except String (List Article)) (maxA : ℕ) :
    ∀ (urls : List String) (seen : List String),
      (processUrls scrape maxA urls seen).2
        = urls.filterMap (fun u =>
            match scrape u with
            | .error e => some ("Error scraping " ++ u ++ ": " ++ e)
            | .ok _ => none) := by
  intro urls
  induction urls with
  | nil => intro seen; simp [processUrls]
  | cons u rest ih =>
    intro seen
    unfold processUrls
    cases hsc : scrape u with
    | error e => simp [hsc, ih seen]
    | ok arts => simp [hsc, ih]

/-- C1 (amended): every batch result has pairwise-distinct article URLs;
and when there are no pre-fetched articles and no source returns more than
`max_articles` articles (so the per-source unique-cap never truncates
mid-source), the entry retained for each URL is the first one encountered
in source-then-extraction order.  (When a source over-returns — e.g. an
RSS source returning up to `2×max` entries — the cap can drop an article
whose URL then re-enters from a later source, and the later copy is
retained: see the counterexample.) -/
theorem scrape_blog_articles_dedup (scrape : String → Except String (List Article))
    (urls : List String) (maxArticles : ℕ) (preFetched : List PreArticle)
    (out : List Article × List String)
    (hout : scrape_blog_articles scrape urls maxArticles preFetched = .ok out) :
    ((out.1.map (fun a => a.url)).Nodup)
    ∧ (preFetched = [] →
        (∀ u ∈ urls, (okArticles scrape u).length ≤ maxArticles) →
        ∀ a ∈ out.1,
          (encounterStream scrape urls).find? (fun x => x.url == a.url) = some a) := by
  unfold scrape_blog_articles at hout
  by_cases hpre : preFetched.any (fun p => p.url != "")
  · rw [if_pos hpre] at hout
    exact absurd hout (by simp)
  · rw [if_neg hpre] at hout
    simp only [Except.ok.injEq] at hout
    constructor
    · rw [← hout]
      exact dedupKeepFirst_nodup _ _
    · intro _ hbound a ha
      rw [← hout] at ha
      by_cases hgate : (0 : ℕ) < maxArticles * urls.length
      · rw [if_pos (by simpa using hgate)] at ha
        rw [processUrls_stream scrape maxArticles urls [] hbound] at ha
        rw [dedupKeepFirst_of_nodup _ [] (fun a _ => rfl)
          (dedupKeepFirst_nodup _ _)] at ha
        exact dedupKeepFirst_first _ [] a ha
      · rw [if_neg (by simpa using hgate)] at ha
        simp [dedupKeepFirst] at ha

/-- C1 witness: a one-source batch where the source returns a single
article; the batch succeeds and the retained article is the first (only)
occurrence of its URL in the encounter stream. -/
theorem scrape_blog_articles_dedup_w :
    (encounterStream wScrapeC1 ["https://w.example/blog"]).find?
        (fun x => x.url == wArtC1.url) = some wArtC1 :=
  (scrape_blog_articles_dedup wScrapeC1 ["https://w.example/blog"] 1 [] ([wArtC1], [])
      (by rfl)).2 rfl (by decide) wArtC1 (by decide)

/-- C1 counterexample: two sources, `max_articles = 1`; the first source
returns `[a, c(X)]` (the per-source cap stops after `a`, silently skipping
`c(X)` without marking its URL seen), the second returns `c(Y)` with the
same URL.  The batch retains `c(Y)`, but the first entry with that URL in
source-then-extraction order is `c(X) ≠ c(Y)`: the first occurrence does
not win. -/
theorem scrape_blog_articles_first_cx :
    scrape_blog_articles cxScrapeC1 ["https://s1.example", "https://s2.example"] 1 []
        = .ok ([cxArtA, cxArtCY], [])
    ∧ (encounterStream cxScrapeC1 ["https://s1.example", "https://s2.example"]).find?
        (fun x => x.url == cxArtCY.url) = some cxArtCX
    ∧ cxArtCX ≠ cxArtCY := by
  refine ⟨by rfl, by rfl, by decide⟩

/-- C2: `scrape_blog_articles` (with its default empty pre-fetched list)
always returns a structurally valid `(articles, errors)` pair — never an
exception; each failing source is converted into exactly one recorded
error string `"Error scraping {url}: {e}"` in source order, and the batch
continues with the remaining sources.  (When the per-source processing
phase is skipped because enough articles are already present —
`max_articles * len(urls) = 0` — no source runs, so no errors arise.) -/
theorem scrape_blog_articles_total_errors (scrape : String → Except String (List Article))
    (urls : List String) (maxArticles : ℕ) :
    ∃ arts, scrape_blog_articles scrape urls maxArticles []
      = .ok (arts,
          if 0 < maxArticles * urls.length then
            urls.filterMap (fun u =>
              match scrape u with
              | .error e => some ("Error scraping " ++ u ++ ": " ++ e)
              | .ok _ => none)
          else []) := by
  unfold scrape_blog_articles
  simp only [List.any_nil, Bool.false_eq_true, if_false]
  by_cases hgate : (0 : ℕ) < maxArticles * urls.length
  · refine ⟨dedupKeepFirst (processUrls scrape maxArticles urls []).1 [], ?_⟩
    rw [if_pos (by simpa using hgate), if_pos hgate,
      processUrls_errors scrape maxArticles urls []]
  · refine ⟨[], ?_⟩
    rw [if_neg (by simpa using hgate), if_neg hgate]
    simp [dedupKeepFirst]

/-! ## C5: feed ordering -/

theorem filter_orderedInsert {α : Type} (key : α → ℕ) (k : ℕ) (x : α) :
    ∀ l : List α,
      (List.orderedInsert (fun a b => key b ≤ key a) x l).filter (fun y => key y == k)
        = if key x == k then x :: l.filter (fun y => key y == k)
          else l.filter (fun y => key y == k) := by
  intro l
  induction l with
  | nil =>
    simp only [List.orderedInsert, List.filter]
    by_cases hx : key x == k <;> simp [hx]
  | cons y ys ih =>
    simp only [List.orderedInsert]
    by_cases hyx : key y ≤ key x
    · rw [if_pos hyx]
      by_cases hx : key x == k <;> simp [List.filter, hx]
    · rw [if_neg hyx]
      by_cases hx : key x == k
      · have hyk : (key y == k) = false := by
          rw [beq_iff_eq] at hx
          rw [beq_eq_false_iff_ne]
          omega
        simp only [List.filter, hyk, ih, hx, if_pos]
      · simp only [List.filter, ih, hx, if_neg]
        by_cases hyk : key y == k <;> simp [hyk]

theorem filter_insertionSort {α : Type} (key : α → ℕ) (k : ℕ) :
    ∀ l : List α,
      (List.insertionSort (fun a b => key b ≤ key a) l).filter (fun y => key y == k)
        = l.filter (fun y => key y == k) := by
  intro l
  induction l with
  | nil => rfl
  | cons x xs ih =>
    simp only [List.insertionSort]
    rw [filter_orderedInsert key k x]
    by_cases hx : key x == k <;> simp [List.filter, hx, ih]

theorem pairwise_insertionSort {α : Type} (key : α → ℕ) (l : List α) :
    List.Pairwise (fun a b => key b ≤ key a)
      (List.insertionSort (fun a b => key b ≤ key a) l) := by
  haveI h1 : IsTotal α (fun a b => key b ≤ key a) := ⟨fun a b => le_total (key b) (key a)⟩
  haveI h2 : IsTrans α (fun a b => key b ≤ key a) :=
    ⟨fun a b c hab hbc => le_trans hbc hab⟩
  exact List.sorted_insertionSort _ l

/-- C5: `_fetch_rss_articles` returns the entry-derived article dicts
sorted in descending order of normalized publish date and truncated to
`max_articles`; the sort is stable — articles with equal keys keep their
original feed order (for every key value, filtering the sorted list for
that key gives exactly the original-order sublist), so ties are broken by
feed position and e.g. entries dated 2024-01-01, 2024-03-01, 2024-02-01
with `max = 2` yield the 03-01 and 02-01 entries in that order. -/
theorem fetch_rss_articles_sorted (dparse : String → Option ℕ)
    (stp : String → String → Option ℕ) (entries : List RssEntry) (maxArticles : ℕ) :
    fetch_rss_articles dparse stp entries maxArticles
      = (sort_articles_by_date dparse stp (entries.map entryToRssArticle)).take maxArticles
    ∧ List.Pairwise
        (fun a b => get_sort_key dparse stp b.published ≤ get_sort_key dparse stp a.published)
        (fetch_rss_articles dparse stp entries maxArticles)
    ∧ ∀ k, (sort_articles_by_date dparse stp (entries.map entryToRssArticle)).filter
            (fun a => get_sort_key dparse stp a.published == k)
          = (entries.map entryToRssArticle).filter
            (fun a => get_sort_key dparse stp a.published == k) := by
  refine ⟨rfl, ?_, ?_⟩
  · exact (pairwise_insertionSort (fun a => get_sort_key dparse stp a.published)
      (entries.map entryToRssArticle)).sublist (List.take_sublist _ _)
  · intro k
    exact filter_insertionSort (fun a => get_sort_key dparse stp a.published) k
      (entries.map entryToRssArticle)

/-! ## C8: link discovery -/

theorem collectLinks_inv (baseUrl : String) :
    ∀ (found : List (Option String)) (acc : List String),
      (∀ u ∈ acc, is_valid_article_url u baseUrl = true) → acc.Nodup →
      acc.length < 50 →
      (∀ u ∈ collectLinks baseUrl acc found, is_valid_article_url u baseUrl = true)
      ∧ (collectLinks baseUrl acc found).Nodup
      ∧ (collectLinks baseUrl acc found).length ≤ 50 := by
  intro found
  induction found with
  | nil =>
    intro acc hval hnd hlen
    simp only [collectLinks]
    exact ⟨hval, hnd, by omega⟩
  | cons o rest ih =>
    intro acc hval hnd hlen
    match o with
    | none => exact ih acc hval hnd hlen
    | some href =>
      show _ ∧ _ ∧ _
      unfold collectLinks
      by_cases hv : is_valid_article_url (urljoin baseUrl href) baseUrl
      · rw [if_pos hv]
        by_cases hc : acc.contains (urljoin baseUrl href)
        · simp only [if_pos hc]
          by_cases hbr : 50 ≤ acc.length
          · omega
          · rw [if_neg hbr]
            exact ih acc hval hnd hlen
        · simp only [if_neg hc]
          have hnotmem : urljoin baseUrl href ∉ acc := by
            intro hm
            rw [List.contains_eq_any_beq] at hc
            exact hc (List.any_eq_true.mpr ⟨_, hm, by simp⟩)
          have hval' : ∀ u ∈ acc ++ [urljoin baseUrl href],
              is_valid_article_url u baseUrl = true := by
            intro u hu
            rcases List.mem_append.mp hu with h | h
            · exact hval u h
            · rw [List.mem_singleton.mp h]; exact hv
          have hnd' : (acc ++ [urljoin baseUrl href]).Nodup := by
            simp [List.nodup_append, hnd, hnotmem]
          have hlen' : (acc ++ [urljoin baseUrl href]).length ≤ 50 := by
            simp; omega
          by_cases hbr : 50 ≤ (acc ++ [urljoin baseUrl href]).length
          · rw [if_pos hbr]
            exact ⟨hval', hnd', hlen'⟩
          · rw [if_neg hbr]
            exact ih _ hval' hnd' (by omega)
      · rw [if_neg hv]
        exact ih acc hval hnd hlen

theorem findLinksLoop_first (select : String → List (Option String)) (baseUrl : String) :
    ∀ sels : List String,
      findLinksLoop select baseUrl sels
        = ((sels.map (fun s => collectLinks baseUrl [] (select s))).find?
            (fun l => !l.isEmpty)).getD [] := by
  intro sels
  induction sels with
  | nil => rfl
  | cons s rest ih =>
    unfold findLinksLoop
    by_cases h : (collectLinks baseUrl [] (select s)).isEmpty
    · rw [if_pos h]
      rw [ih]
      simp only [List.map_cons]
      rw [List.find?_cons_of_neg _ (by simp [h])]
    · rw [if_neg h]
      simp only [List.map_cons]
      rw [List.find?_cons_of_pos _ (by simp [h])]
      rfl

/-- C8 (amended): link discovery returns the candidates collected from the
first selector in the ordered selector list whose matches yield at least
one *valid* candidate (selectors all of whose matches are filtered out are
skipped — the claim's "first selector that yields any matches" is not what
the code tests); results from later selectors are never merged in; every
returned candidate passes `_is_valid_article_url` against the base URL
(same domain, valid article pattern, no invalid pattern, path strictly
longer than `/blog/`), the list is deduplicated by exact URL, and it holds
at most 50 candidates. -/
theorem find_article_links_spec (select : String → List (Option String)) (baseUrl : String) :
    find_article_links select baseUrl
      = ((articleLinkSelectors.map (fun s => collectLinks baseUrl [] (select s))).find?
          (fun l => !l.isEmpty)).getD []
    ∧ (∀ u ∈ find_article_links select baseUrl, is_valid_article_url u baseUrl = true)
    ∧ (find_article_links select baseUrl).Nodup
    ∧ (find_article_links select baseUrl).length ≤ 50 := by
  have hchar := findLinksLoop_first select baseUrl articleLinkSelectors
  have hprops : (∀ u ∈ find_article_links select baseUrl,
      is_valid_article_url u baseUrl = true)
      ∧ (find_article_links select baseUrl).Nodup
      ∧ (find_article_links select baseUrl).length ≤ 50 := by
    unfold find_article_links
    rw [hchar]
    cases hfind : (articleLinkSelectors.map
        (fun s => collectLinks baseUrl [] (select s))).find? (fun l => !l.isEmpty) with
    | none => simp
    | some l =>
      have hmem := List.mem_of_find?_eq_some hfind
      rcases List.mem_map.mp hmem with ⟨s, _, rfl⟩
      simpa using collectLinks_inv baseUrl (select s) [] (by simp) (by simp) (by simp)
  exact ⟨hchar, hprops⟩

/-- C8 witness: on the fixture page, the discovered candidate
`https://example.com/articles/foo` is a valid article URL for the base. -/
theorem find_article_links_spec_w :
    is_valid_article_url "https://example.com/articles/foo" "https://example.com/blog" = true :=
  (find_article_links_spec cxSelectC8 "https://example.com/blog").2.1
    "https://example.com/articles/foo" (by decide)

/-- C8 counterexample: the first selector that yields any matches is
`a[href^="/blog/"]` (it matches the tag-page anchor), but all its matches
are filtered out, and discovery goes on to return a candidate found by the
later `h2 a` selector — refuting "candidates are taken only from the first
selector that yields any matches". -/
theorem find_article_links_cx :
    find_article_links cxSelectC8 "https://example.com/blog"
        = ["https://example.com/articles/foo"]
    ∧ articleLinkSelectors.find? (fun s => !(cxSelectC8 s).isEmpty)
        = some "a[href^=\"/blog/\"]"
    ∧ collectLinks "https://example.com/blog" [] (cxSelectC8 "a[href^=\"/blog/\"]") = [] := by
  refine ⟨by decide, by decide, by decide⟩

/-! ## C9: word-count consistency -/

/-- C9 (amended): on the content-bearing extraction paths — the feed
extractor, the Scira JSON path, and the full-content HTML extraction —
every returned article's `word_count` equals the whitespace-token count of
its `content`.  (On the degraded paths — the Scira regex fallback, the
basic curl stub path, and the heading-based extraction — `word_count` is
hard-coded to `0` while `content` is a non-empty placeholder string, and
the pydantic `Article` model makes `word_count` an independently settable
field with default `0`: see the counterexample.) -/
theorem word_count_content_paths :
    (∀ (entries : List FeedEntry) (maxA : ℕ) (url : String) (a : Article),
        a ∈ scrape_rss entries maxA url → a.wordCount = countTokens a.content)
    ∧ (∀ (items : List SciraItem) (baseUrl : String) (a : Article),
        a ∈ parse_scira_response items baseUrl → a.wordCount = countTokens a.content)
    ∧ (∀ (links : List String) (fetchArticle : String → Option ArticleData)
        (maxA : ℕ) (cn : String) (a : Article),
        a ∈ extract_articles_full links fetchArticle maxA cn →
          a.wordCount = countTokens a.content) := by
  refine ⟨?_, ?_, ?_⟩
  · intro entries maxA url a ha
    unfold scrape_rss at ha
    by_cases h : entries.isEmpty
    · rw [if_pos h] at ha
      simp at ha
    · rw [if_neg h] at ha
      rcases List.mem_map.mp ha with ⟨e, _, rfl⟩
      rfl
  · intro items baseUrl a ha
    rcases List.mem_map.mp ha with ⟨it, _, rfl⟩
    rfl
  · intro links fetchArticle maxA cn a ha
    rcases List.mem_filterMap.mp ha with ⟨link, _, hsome⟩
    cases hf : fetchArticle link with
    | none => rw [hf] at hsome; simp at hsome
    | some d =>
      rw [hf] at hsome
      simp only [Option.some.injEq] at hsome
      rw [← hsome]

/-- C9 witness: the article the feed extractor builds from a two-word
description carries `word_count = 2 = countTokens content`. -/
theorem word_count_content_paths_w :
    wArtC9.wordCount = countTokens wArtC9.content :=
  word_count_content_paths.1 [wEntryC9] 1 "https://x.example/feed" wArtC9 (by decide)

/-- C9 counterexample: the Scira regex-fallback path returns an article
whose `content` is the six-token placeholder
`"Content not available in fallback parsing"` but whose `word_count` is
`0`: the invariant `word_count = countTokens content` fails on that
extraction path. -/
theorem word_count_cx :
    (parse_scira_fallback ["Ten Container Security Tips"] [] "https://www.aquasec.com").all
      (fun a => a.wordCount == countTokens a.content) = false := by
  decide

/-! ## C10: boilerplate text cleaning -/

theorem occSound (pat : List Char) :
    ∀ (m : List Char) (j : ℕ), firstOccur pat m = some j → pat <+: m.drop j := by
  intro m
  induction m with
  | nil =>
    intro j h
    unfold firstOccur at h
    by_cases hp : pat.isEmpty
    · rw [if_pos hp] at h
      simp only [Option.some.injEq] at h
      rw [← h]
      simp [List.isEmpty_iff.mp hp]
    · rw [if_neg hp] at h
      simp at h
  | cons c rest ih =>
    intro j h
    unfold firstOccur at h
    by_cases hd : pat <+: c :: rest
    · rw [if_pos (by simpa using hd)] at h
      simp only [Option.some.injEq] at h
      rw [← h]
      simpa using hd
    · rw [if_neg (by simpa using hd)] at h
      rcases Option.map_eq_some'.mp h with ⟨j', hj', rfl⟩
      simpa using ih j' hj'

theorem occLeast (pat : List Char) :
    ∀ (m : List Char) (i : ℕ), pat <+: m.drop i →
      ∃ j, firstOccur pat m = some j ∧ j ≤ i := by
  intro m
  induction m with
  | nil =>
    intro i h
    simp only [List.drop_nil] at h
    have hp : pat = [] := List.prefix_nil.mp h
    exact ⟨0, by simp [firstOccur, hp], by omega⟩
  | cons c rest ih =>
    intro i h
    by_cases hd : pat <+: c :: rest
    · exact ⟨0, by simp [firstOccur, hd], by omega⟩
    · match i with
      | 0 => exact absurd (by simpa using h) hd
      | i' + 1 =>
        rcases ih i' (by simpa using h) with ⟨j', hj', hle⟩
        refine ⟨j' + 1, ?_, by omega⟩
        unfold firstOccur
        rw [if_neg (by simpa using hd), hj']
        rfl

theorem cutLe (p : String) (s : List Char) (i : ℕ) (h : occursCI p s i) :
    (cutFrom p s).length ≤ i := by
  unfold occursCI at h
  rcases occLeast (p.data.map Char.toLower) (s.map Char.toLower) i h with ⟨j, hfo, hle⟩
  unfold cutFrom
  rw [hfo]
  simp only [List.length_take]
  omega

theorem cutPreOf (p : String) (s : List Char) : cutFrom p s <+: s := by
  unfold cutFrom
  cases firstOccur (p.data.map Char.toLower) (s.map Char.toLower) with
  | none => exact ⟨[], by simp⟩
  | some j => exact ⟨s.drop j, List.take_append_drop j s⟩

theorem applyCutsPre : ∀ (ps : List String) (s : List Char), applyCuts ps s <+: s := by
  intro ps
  induction ps with
  | nil => intro s; exact ⟨[], by simp [applyCuts]⟩
  | cons p ps ih =>
    intro s
    have h1 : applyCuts (p :: ps) s = applyCuts ps (cutFrom p s) := rfl
    rw [h1]
    exact (ih (cutFrom p s)).trans (cutPreOf p s)

theorem applyCutsLen (ps : List String) (s : List Char) :
    (applyCuts ps s).length ≤ s.length := (applyCutsPre ps s).length_le

theorem rstSub : ∀ (n : ℕ) (l : List Char), List.Sublist (removeShareThisAux n l) l := by
  intro n
  induction n with
  | zero => intro l; exact List.Sublist.refl l
  | succ n ih =>
    intro l
    match l with
    | [] => exact List.Sublist.refl []
    | c :: rest =>
      unfold removeShareThisAux
      by_cases hm : decide ("share this:".data <+: (c :: rest).map Char.toLower) = true
      · rw [if_pos hm]
        have hdrop : (c :: rest).drop 11 = rest.drop 10 := rfl
        cases hcase : rest.drop 10 with
        | nil =>
          rw [hdrop, hcase]
          exact (ih rest).cons₂ c
        | cons d after =>
          rw [hdrop, hcase]
          show (if isWordChar d = true
              then removeShareThisAux n ((d :: after).dropWhile isWordChar)
              else c :: removeShareThisAux n rest).Sublist (c :: rest)
          by_cases hw : isWordChar d
          · rw [if_pos hw]
            have h1 := ih ((d :: after).dropWhile isWordChar)
            have h2 : List.Sublist ((d :: after).dropWhile isWordChar) (d :: after) :=
              (List.dropWhile_suffix isWordChar).sublist
            have h3 : List.Sublist (d :: after) (c :: rest) := by
              rw [← hcase, ← hdrop]
              exact List.drop_sublist 11 (c :: rest)
            exact (h1.trans h2).trans h3
          · rw [if_neg hw]
            exact (ih rest).cons₂ c
      · rw [if_neg hm]
        exact (ih rest).cons₂ c

theorem rstLenLe (l : List Char) : (removeShareThis l).length ≤ l.length :=
  (rstSub l.length l).length_le

theorem cutKeeps (q p : String)
    (hno : noInner (q.data.map Char.toLower) (p.data.map Char.toLower))
    (s : List Char) (i : ℕ) (h : occursCI p s i) :
    (cutFrom q s).length ≤ i ∨ occursCI p (cutFrom q s) i := by
  unfold occursCI at h
  unfold cutFrom
  cases hfo : firstOccur (q.data.map Char.toLower) (s.map Char.toLower) with
  | none => exact Or.inr h
  | some j =>
    have hq : (q.data.map Char.toLower) <+: (s.map Char.toLower).drop j :=
      occSound _ _ _ hfo
    by_cases hji : j ≤ i
    · left
      simp only [List.length_take]
      omega
    · by_cases hjp : i + (p.data.map Char.toLower).length ≤ j
      · right
        unfold occursCI
        rw [List.map_take, List.drop_take]
        exact preTakeOfLe h (by omega)
      · exfalso
        have hd1 : 0 < j - i := by omega
        have hd2 : j - i < (p.data.map Char.toLower).length := by omega
        have hpd : (p.data.map Char.toLower).drop (j - i)
            <+: (s.map Char.toLower).drop j := by
          have h1 := preDrop (j - i) h
          rw [List.drop_drop] at h1
          have hij : i + (j - i) = j := by omega
          rw [hij] at h1
          exact h1
        rcases preTotal hq hpd with hcase | hcase
        · exact (hno (j - i) hd2 hd1).1 hcase
        · exact (hno (j - i) hd2 hd1).2 hcase

theorem applyCutsLe :
    ∀ (pres : List String) (p : String) (posts : List String) (s : List Char) (i : ℕ),
      (∀ q ∈ pres, noInner (q.data.map Char.toLower) (p.data.map Char.toLower)) →
      occursCI p s i →
      (applyCuts (pres ++ p :: posts) s).length ≤ i := by
  intro pres
  induction pres with
  | nil =>
    intro p posts s i _ hocc
    have h1 : applyCuts ([] ++ p :: posts) s = applyCuts posts (cutFrom p s) := rfl
    rw [h1]
    have h2 := applyCutsLen posts (cutFrom p s)
    have h3 := cutLe p s i hocc
    omega
  | cons q pres ih =>
    intro p posts s i hno hocc
    have h1 : applyCuts ((q :: pres) ++ p :: posts) s
        = applyCuts (pres ++ p :: posts) (cutFrom q s) := rfl
    rw [h1]
    rcases cutKeeps q p (hno q (List.mem_cons_self q pres)) s i hocc with hle | hocc'
    · have h2 := applyCutsLen (pres ++ p :: posts) (cutFrom q s)
      omega
    · exact ih p posts (cutFrom q s) i
        (fun r hr => hno r (List.mem_cons_of_mem q hr)) hocc'

/-- C10: `_clean_text` returns the empty string on empty input; and for
every input whose whitespace-collapsed, stripped form contains a
case-insensitive occurrence of one of the four boilerplate phrases
(`Original story from`, `Read more`, `Continue reading`, `View comments`)
at position `i`, the cleaned result keeps at most the first `i` characters:
the occurrence and *all* text from it to the end of the string are removed,
not merely a trailing phrase. -/
theorem clean_text_spec :
    clean_text "" = ""
    ∧ ∀ (s p : String) (i : ℕ), p ∈ boilerplatePhrases →
        occursCI p (collapsedOf s) i → (clean_text s).length ≤ i := by
  refine ⟨rfl, ?_⟩
  intro s p i hp hocc
  by_cases hs : s = ""
  · subst hs
    simp [clean_text]
  · have hct : clean_text s
        = ⟨removeShareThis (applyCuts boilerplatePhrases (collapsedOf s))⟩ := by
      simp [clean_text, hs]
    rw [hct]
    show (removeShareThis (applyCuts boilerplatePhrases (collapsedOf s))).length ≤ i
    have h1 := rstLenLe (applyCuts boilerplatePhrases (collapsedOf s))
    have h2 : (applyCuts boilerplatePhrases (collapsedOf s)).length ≤ i := by
      have hp' : p = "Original story from" ∨ p = "Read more" ∨ p = "Continue reading"
          ∨ p = "View comments" := by
        simpa [boilerplatePhrases] using hp
      rcases hp' with rfl | rfl | rfl | rfl
      · have h := applyCutsLe [] "Original story from"
          ["Read more", "Continue reading", "View comments"] (collapsedOf s) i
          (by simp) hocc
        simpa [boilerplatePhrases] using h
      · have h := applyCutsLe ["Original story from"] "Read more"
          ["Continue reading", "View comments"] (collapsedOf s) i
          (by intro q hq; rw [List.mem_singleton.mp hq]; decide) hocc
        simpa [boilerplatePhrases] using h
      · have h := applyCutsLe ["Original story from", "Read more"] "Continue reading"
          ["View comments"] (collapsedOf s) i
          (by
            intro q hq
            rcases List.mem_cons.mp hq with rfl | hq'
            · decide
            · rw [List.mem_singleton.mp hq']; decide) hocc
        simpa [boilerplatePhrases] using h
      · have h := applyCutsLe ["Original story from", "Read more", "Continue reading"]
          "View comments" [] (collapsedOf s) i
          (by
            intro q hq
            rcases List.mem_cons.mp hq with rfl | hq'
            · decide
            · rcases List.mem_cons.mp hq' with rfl | hq''
              · decide
              · rw [List.mem_singleton.mp hq'']; decide) hocc
        simpa [boilerplatePhrases] using h
    omega

/-- C10 witness: `"Hello world Read more: subscribe now"` contains
`Read more` at position 12 of its collapsed form, and the cleaned text
keeps at most 12 characters. -/
theorem clean_text_spec_w :
    ("Read more" ∈ boilerplatePhrases)
    ∧ occursCI "Read more" (collapsedOf "Hello world Read more: subscribe now") 12
    ∧ (clean_text "Hello world Read more: subscribe now").length ≤ 12 :=
  ⟨by decide, by decide,
   clean_text_spec.2 "Hello world Read more: subscribe now" "Read more" 12
     (by decide) (by decide)⟩
